import Mathlib

/-!
# Verification of the message-passing car pipeline (`Distributed_memory/mpi.cpp`)

A shallow embedding of the pipeline's sequential actors, of the sorted insert of
`Shared_memory/monitor.cpp`, and of the index split of `Shared_memory/openmp.cpp`:

* `computeHash`, `insertItem`            (lines 285-302)
* the Worker loop body `workerProcess`   (lines 255-283)
* the Buffer loop `dataProcess`          (lines 169-219)
* the Aggregator loop `resultProcess`    (lines 221-253)
* the Source loops of `mainProcess`     (feed: lines 137-151, collect: lines 153-166)
* `splitElements` and the thread ranges  (`openmp.cpp`, lines 51-59 and 102-115)

Modelling conventions.

* `std::string` is `String`; `a.compare(b) > 0` is `b < a` in the lexicographic order.
* `int` values that are only compared (`year`, request codes) are `Int`, and so is the
  Buffer's `count`, which the code both increments and decrements; the Aggregator's
  counters and the loop index of `insertItem`, which only move towards a bound, are `Nat`.
* A C array `new Car[k]` is a `List` of length `k`; `a[i] = v` is `List.set`, a read is
  `List.getD` with the default-constructed `Car()`.
* `double`, `std::to_string(double)` and the SHA1 digest come from outside the program;
  they are the fields of `Extern`.
* `to_json` / `from_json` are treated as a lossless codec, so a character message is the
  record it carries (`some car`), and the zero-length message is `none`.
-/

namespace Mpi

/-! ## Constants (lines 14, 55-70) -/

def FILTER_FROM_YEAR : Int := 2000

def MAIN_PROC : Nat := 0
def DATA_PROC : Nat := 1
def RESULT_PROC : Nat := 2
def WORKER_PROC : Nat := 3

def TO_DATA : Nat := 10
def TO_MAIN : Nat := 20
def TO_WORKER : Nat := 30
def TO_RES : Nat := 40

def INSERT : Int := 100
def REMOVE : Int := 101
def END : Int := 102
def ACCEPT : Int := 200
def REJECT : Int := 201

/-! ## External collaborators -/

/-- The parts of the program that live in libraries: the type `D` of `double` values with
the literal `0.0` and `operator!=`, `std::to_string(double)`, and the SHA1 digest
(`sha.update(s); sha.final()`).  The only law used is that `0.0 != 0.0` is false. -/
structure Extern (D : Type) where
  zero : D
  ne : D → D → Bool
  to_string_double : D → String
  sha1 : String → String
  ne_zero_zero : ne zero zero = false

/-! ## Record model (lines 16-53) -/

/-- The `Car` struct. -/
structure Car (D : Type) where
  name : String
  year : Int
  mileage : D
  hash : String
  deriving DecidableEq

variable {D : Type}

/-- The default-constructed record `Car()`. -/
def Car.mk0 (E : Extern D) : Car D := ⟨"", 0, E.zero, ""⟩

/-- The member `operator!=` (lines 49-52). -/
def Car.ne (E : Extern D) (a b : Car D) : Bool :=
  (a.name != b.name) || (a.year != b.year) || E.ne a.mileage b.mileage || (a.hash != b.hash)

/-! ## `std::to_string(int)` -/

/-- Decimal text of an `int`, as `std::to_string(int)` (`%d`) prints it. -/
def to_string : Int → String
  | Int.ofNat n => Nat.repr n
  | Int.negSucc n => "-" ++ Nat.repr (n + 1)

/-! ## `std::string::compare` -/

/-- Three-way lexicographic comparison of character sequences: the first differing
character decides, otherwise the shorter sequence is smaller. -/
def compareChars : List Char → List Char → Ordering
  | [], [] => .eq
  | [], _ :: _ => .lt
  | _ :: _, [] => .gt
  | a :: as, b :: bs => if a < b then .lt else if b < a then .gt else compareChars as bs

/-- The call `a.compare(b)`; the sign of the C++ result is the `Ordering`. -/
def strCompare (a b : String) : Ordering := compareChars a.data b.data

/-! ## `computeHash` and `insertItem` (lines 285-302) -/

/-- The string handed to the digest at line 287. -/
def hashInput (E : Extern D) (car : Car D) : String :=
  car.name ++ to_string car.year ++ E.to_string_double car.mileage

/-- The function `computeHash` (lines 285-294): set the hash, then blank the record when its year is below
the threshold. -/
def computeHash (E : Extern D) (car : Car D) : Car D :=
  let car1 : Car D := { car with hash := E.sha1 (hashInput E car) }
  if FILTER_FROM_YEAR ≤ car1.year then car1 else Car.mk0 E

/-- The `for` loop of `insertItem` (line 298-300), entered with loop variable `i`: shifts
entries up while `cars[i-1].hash.compare(item.hash) > 0`; returns the final `i` and the array. -/
def insertLoop (E : Extern D) (item : Car D) : Nat → List (Car D) → Nat × List (Car D)
  | 0, cars => (0, cars)
  | i + 1, cars =>
    if strCompare (cars.getD i (Car.mk0 E)).hash item.hash = .gt then
      insertLoop E item i (cars.set (i + 1) (cars.getD i (Car.mk0 E)))
    else (i + 1, cars)

/-- The function `insertItem` (lines 296-302): returns the updated array and the incremented `bufSize`. -/
def insertItem (E : Extern D) (cars : List (Car D)) (bufSize : Nat) (item : Car D) :
    List (Car D) × Nat :=
  let r := insertLoop E item bufSize cars
  (r.2.set r.1 item, bufSize + 1)

/-- The data members of `Monitor` (`Shared_memory/monitor.cpp`, lines 102-106). -/
structure Monitor (D : Type) where
  arr : List (Car D)
  count : Nat
  capacity : Nat
  canBeFilled : Bool

/-- The member `Monitor::insertItem` (`monitor.cpp`, lines 111-117): the same loop, entered with
`i = ++count - 1`, the old `count`. -/
def Monitor.insertItem (E : Extern D) (m : Monitor D) (item : Car D) : Monitor D :=
  let r := insertLoop E item (m.count + 1 - 1) m.arr
  { m with arr := r.2.set r.1 item, count := m.count + 1 }

/-- Ascending by hash, in the lexicographic order of strings. -/
def SortedByHash (l : List (Car D)) : Prop := l.Pairwise (fun a b => a.hash ≤ b.hash)

/-- Executable check of `SortedByHash`, by `compare` on consecutive entries. -/
def sortedCheck : List (Car D) → Bool
  | [] => true
  | [_] => true
  | a :: b :: rest => (strCompare a.hash b.hash != .gt) && sortedCheck (b :: rest)

/-- Placement of `item` in a sequence listed from its last entry to its first: pass the
entries whose hash compares greater than the item's, then put the item. -/
def placeBack (item : Car D) : List (Car D) → List (Car D)
  | [] => [item]
  | x :: rest =>
    if strCompare x.hash item.hash = .gt then x :: placeBack item rest else item :: x :: rest

/-! ## Worker (lines 255-283) -/

/-- Lines 274-281 of `workerProcess`: the messages a Worker sends to `RESULT_PROC` for one
record received from the Buffer. -/
def workerSend (E : Extern D) (entry : Car D) : List (Option (Car D)) :=
  let car := computeHash E entry
  if Car.ne E car (Car.mk0 E) then [some car] else []

/-- The loop of `workerProcess` run on the Buffer's successive replies; each reply is the
request code together with the entry that follows an `ACCEPT`.  The result is the list of
messages sent to `RESULT_PROC`. -/
def workerProcess (E : Extern D) : List (Int × Car D) → List (Option (Car D))
  | [] => []
  | (request, entry) :: rest =>
    if request = END then [none]
    else if request ≠ ACCEPT then workerProcess E rest
    else workerSend E entry ++ workerProcess E rest

/-! ## Buffer (lines 169-219) -/

/-- Content of a message sent by the Buffer: a request code or a serialized record. -/
inductive Body (D : Type) where
  | int (v : Int)
  | entry (car : Car D)
  deriving DecidableEq

/-- Communication performed while a request is handled: a send to `dest` on `tag`, or the
receipt of the payload that follows an accepted `INSERT`. -/
inductive Action (D : Type) where
  | send (dest tag : Nat) (body : Body D)
  | recvEntry (source tag : Nat)
  deriving DecidableEq

/-- A request as the Buffer sees it: the sender's rank, the request code, and the record
the sender transmits if the request is an `INSERT` that gets accepted. -/
structure Request (D : Type) where
  source : Nat
  request : Int
  entry : Car D
  deriving DecidableEq

/-- Local variables of `dataProcess`. -/
structure DataState (D : Type) where
  buffer : List (Car D)
  count : Int
  isDataSending : Bool
  deriving DecidableEq

/-- State on entry to the loop (lines 170-172). -/
def dataInit (E : Extern D) (bufSize : Nat) : DataState D :=
  ⟨List.replicate bufSize (Car.mk0 E), 0, true⟩

/-- The loop condition `isDataSending || count > 0` (line 173). -/
def DataState.running (s : DataState D) : Bool := s.isDataSending || decide (s.count > 0)

/-- One iteration of the loop body (lines 174-210). -/
def dataStep (E : Extern D) (bufSize : Nat) (s : DataState D) (r : Request D) :
    DataState D × List (Action D) :=
  if r.request = INSERT then
    if s.count < (bufSize : Int) then
      ({ s with buffer := s.buffer.set s.count.toNat r.entry, count := s.count + 1 },
        [.send r.source TO_MAIN (.int ACCEPT), .recvEntry r.source TO_DATA])
    else (s, [.send r.source TO_MAIN (.int REJECT)])
  else if r.request = REMOVE then
    if s.count > 0 then
      ({ s with count := s.count - 1 },
        [.send r.source TO_WORKER (.int ACCEPT),
         .send r.source TO_WORKER (.entry (s.buffer.getD (s.count - 1).toNat (Car.mk0 E)))])
    else (s, [.send r.source TO_WORKER (.int REJECT)])
  else if r.request = END then ({ s with isDataSending := false }, [])
  else (s, [])

/-- The `while` loop (lines 173-211) run on the incoming requests: final state, the actions
performed, and the requests left unread.  When the requests run out the loop is blocked in
`Probe`. -/
def dataLoop (E : Extern D) (bufSize : Nat) :
    DataState D → List (Request D) → DataState D × List (Action D) × List (Request D)
  | s, [] => (s, [], [])
  | s, r :: rs =>
    if s.running then
      let r1 := dataStep E bufSize s r
      let r2 := dataLoop E bufSize r1.1 rs
      (r2.1, r1.2 ++ r2.2.1, r2.2.2)
    else (s, [], r :: rs)

/-- The states the loop is in after each request it handles. -/
def dataStates (E : Extern D) (bufSize : Nat) : DataState D → List (Request D) → List (DataState D)
  | _, [] => []
  | s, r :: rs =>
    if s.running then
      (dataStep E bufSize s r).1 :: dataStates E bufSize (dataStep E bufSize s r).1 rs
    else []

/-- The state after the loop body has been executed for each of `reqs` in turn. -/
def dataRun (E : Extern D) (bufSize : Nat) (s : DataState D) (reqs : List (Request D)) :
    DataState D :=
  reqs.foldl (fun st r => (dataStep E bufSize st r).1) s

/-- Recognizes an `END` notice sent to rank `d`. -/
def isDoneTo (d : Nat) : Action D → Bool
  | .send dest _ (.int v) => decide (dest = d) && decide (v = END)
  | _ => false

/-- The final `for` loop (lines 213-216): `END` to ranks `WORKER_PROC + i`, `i < workerCount`. -/
def doneNotices (workerCount : Nat) : List (Action D) :=
  (List.range workerCount).map (fun i => .send (WORKER_PROC + i) TO_WORKER (.int END))

/-- The function `dataProcess`: all actions performed if the loop exits, `none` if it stays blocked
waiting for a request. -/
def dataProcess (E : Extern D) (bufSize workerCount : Nat) (reqs : List (Request D)) :
    Option (List (Action D)) :=
  let r := dataLoop E bufSize (dataInit E bufSize) reqs
  if r.1.running then none else some (r.2.1 ++ doneNotices workerCount)

/-- The records logically held by the Buffer: entries `0 .. count-1`. -/
def DataState.stored (s : DataState D) : List (Car D) := s.buffer.take s.count.toNat

/-- Shape of a Buffer state: the array has `bufSize` slots and `0 ≤ count ≤ bufSize`. -/
def DataState.WF (bufSize : Nat) (s : DataState D) : Prop :=
  s.buffer.length = bufSize ∧ 0 ≤ s.count ∧ s.count ≤ (bufSize : Int)

/-- The capacity `main` passes to `dataProcess` (line 101): `cars.size() / 2`. -/
def mainBufSize (cars : List (Car D)) : Nat := cars.length / 2

/-! ## Aggregator (lines 221-253) -/

/-- Local variables of `resultProcess`. -/
structure ResultState (D : Type) where
  buffer : List (Car D)
  count : Nat
  workersFinished : Nat

/-- State on entry to the loop (lines 222-224). -/
def resultInit (E : Extern D) (bufSize : Nat) : ResultState D :=
  ⟨List.replicate bufSize (Car.mk0 E), 0, 0⟩

/-- The receive loop (lines 226-242) run on the incoming character messages; `none` is the
zero-length message.  Returns the state at `break` and the messages not received; `none`
when the stream ends before the loop breaks (blocked in `Probe`). -/
def resultLoop (E : Extern D) (workerCount : Nat) :
    ResultState D → List (Option (Car D)) → Option (ResultState D × List (Option (Car D)))
  | _, [] => none
  | s, some car :: ms =>
    resultLoop E workerCount
      ⟨(insertItem E s.buffer s.count car).1, (insertItem E s.buffer s.count car).2,
        s.workersFinished⟩ ms
  | s, none :: ms =>
    if s.workersFinished + 1 ≥ workerCount then
      some ({ s with workersFinished := s.workersFinished + 1 }, ms)
    else resultLoop E workerCount { s with workersFinished := s.workersFinished + 1 } ms

/-- Lines 244-250: the messages sent to `MAIN_PROC` on `TO_MAIN` after the loop. -/
def resultSends (E : Extern D) (s : ResultState D) : List (Option (Car D)) :=
  (List.range s.count).map (fun i => some (s.buffer.getD i (Car.mk0 E))) ++ [none]

/-- The function `resultProcess`: the messages sent to the Source, `none` if the receive loop stays
blocked. -/
def resultProcess (E : Extern D) (bufSize workerCount : Nat) (msgs : List (Option (Car D))) :
    Option (List (Option (Car D))) :=
  (resultLoop E workerCount (resultInit E bufSize) msgs).map (fun r => resultSends E r.1)

/-- The records logically held by the Aggregator: entries `0 .. count-1`. -/
def ResultState.stored (s : ResultState D) : List (Car D) := s.buffer.take s.count

/-! ## Source collect loop (lines 153-165) -/

/-- The collect loop of `mainProcess` run on the messages from `RESULT_PROC`: the final
`results` and the messages not received; `none` if no terminator arrives. -/
def collectLoop : List (Car D) → List (Option (Car D)) →
    Option (List (Car D) × List (Option (Car D)))
  | _, [] => none
  | results, none :: ms => some (results, ms)
  | results, some car :: ms => collectLoop (results ++ [car]) ms

/-! ## Source feed loop (lines 137-151) -/

/-- The feed loop of `mainProcess` run on the Buffer's successive replies: the messages
sent to `DATA_PROC` on `TO_DATA`, and whether the loop was left, which is when `END` is
sent.  With a record still to feed and no reply left, the Source is blocked in `Recv`. -/
def feedLoop : List (Car D) → List Int → List (Body D) × Bool
  | [], _ => ([.int END], true)
  | _ :: _, [] => ([.int INSERT], false)
  | c :: cs, reply :: rs =>
    if reply ≠ ACCEPT then
      (.int INSERT :: (feedLoop (c :: cs) rs).1, (feedLoop (c :: cs) rs).2)
    else (.int INSERT :: .entry c :: (feedLoop cs rs).1, (feedLoop cs rs).2)

/-- The request the Buffer reads next while record `c` waits to be fed: the Source's
`INSERT` (`none`), or the `REMOVE` of the Worker with rank `w` (`some w`). -/
def retryRequest (E : Extern D) (c : Car D) : Option Nat → Request D
  | none => ⟨MAIN_PROC, INSERT, c⟩
  | some w => ⟨w, REMOVE, Car.mk0 E⟩

/-- The `REJECT` answer to the request `retryRequest` describes. -/
def rejectReply : Option Nat → Action D
  | none => .send MAIN_PROC TO_MAIN (.int REJECT)
  | some w => .send w TO_WORKER (.int REJECT)

/-! ## Hash-filter-sort pipeline seen from the Aggregator -/

/-- The payloads reaching the Aggregator when the records `arrival` pass through the
Workers in this order. -/
def workerPayloads (E : Extern D) (arrival : List (Car D)) : List (Car D) :=
  (arrival.flatMap (workerSend E)).reduceOption

/-- Successive `insertItem` calls on the Aggregator's array and count. -/
def insertAll (E : Extern D) (st : List (Car D) × Nat) (items : List (Car D)) :
    List (Car D) × Nat :=
  items.foldl (fun acc item => insertItem E acc.1 acc.2 item) st

/-- A record with the hash `computeHash` stores into it. -/
def withHash (E : Extern D) (car : Car D) : Car D :=
  { car with hash := E.sha1 (car.name ++ to_string car.year ++ E.to_string_double car.mileage) }

/-! ## Reading decimal text -/

/-- Value of a sequence of decimal digit characters, most significant first. -/
def digitsValue (cs : List Char) : Nat := cs.foldl (fun acc c => acc * 10 + (c.toNat - 48)) 0

/-! ## Concrete externals used to evaluate the definitions -/

/-- Externals restricted to whole-number mileages, which `std::to_string(double)` prints
as the integer followed by `.000000`; the digest is the identity function. -/
def wholeExtern : Extern Nat where
  zero := 0
  ne := fun a b => a != b
  to_string_double := fun m => Nat.repr m ++ ".000000"
  sha1 := fun s => s
  ne_zero_zero := by decide

/-- The input of the spec's scenario, with whole-number mileages. -/
def scenarioInput : List (Car Nat) :=
  [⟨"A", 1999, 10, ""⟩, ⟨"B", 2005, 20, ""⟩, ⟨"C", 2010, 5, ""⟩]

/-- An order in which the scenario's records may leave the Buffer. -/
def scenarioArrival : List (Car Nat) :=
  [⟨"C", 2010, 5, ""⟩, ⟨"A", 1999, 10, ""⟩, ⟨"B", 2005, 20, ""⟩]

/-- An Aggregator array of three slots holding two records, sorted by hash. -/
def sampleStore : List (Car Nat) := [⟨"", 0, 0, "a"⟩, ⟨"", 0, 0, "c"⟩, ⟨"", 0, 0, ""⟩]

/-- Record `("A", 1999, 10.0)` as the Source sends it. -/
def carA : Car Nat := ⟨"A", 1999, 10, ""⟩

/-- Record `("B", 2005, 20.0)` as the Source sends it. -/
def carB : Car Nat := ⟨"B", 2005, 20, ""⟩

/-- A request stream for a Buffer of capacity 1 serving the Source (rank 0) and two Workers
(ranks 3 and 4): insert, rejected insert, remove, insert, end of input, remove, and one
more remove that is never read. -/
def sampleReqs : List (Request Nat) :=
  [⟨0, INSERT, carA⟩, ⟨0, INSERT, carB⟩, ⟨3, REMOVE, Car.mk0 wholeExtern⟩, ⟨0, INSERT, carB⟩,
   ⟨0, END, Car.mk0 wholeExtern⟩, ⟨4, REMOVE, Car.mk0 wholeExtern⟩,
   ⟨3, REMOVE, Car.mk0 wholeExtern⟩]

/-- A message stream for an Aggregator with two Workers: two payloads, the first Worker's
notice, one more payload; the second notice follows it. -/
def sampleMsgs : List (Option (Car Nat)) :=
  [some ⟨"C", 2010, 5, "c"⟩, some ⟨"B", 2005, 20, "b"⟩, none, some ⟨"D", 2001, 1, "a"⟩]

/-- First record of the digest-input collision: `("A2001", 2002, 5.0)`. -/
def collisionA : Car Nat := ⟨"A2001", 2002, 5, ""⟩

/-- Second record of the digest-input collision: `("A", 2001, 20025.0)`. -/
def collisionB : Car Nat := ⟨"A", 2001, 20025, ""⟩

end Mpi

/-! # The index split of the OpenMP variant (`Shared_memory/openmp.cpp`) -/

namespace OpenMp

/-- Number of threads (line 15). -/
def THREAD_NUM : Nat := 4

/-- The `for` loop of `splitElements` (lines 107-114) with `k` iterations left, loop
variable `i`, and the current `rem` and array. -/
def splitLoop (floor : Int) : Nat → Nat → Int → List Int → List Int
  | 0, _, _, arr => arr
  | k + 1, i, rem, arr =>
    if rem > 0 then
      splitLoop floor k (i + 1) (rem - 1) (arr.set i (floor + 1 + arr.getD (i - 1) 0))
    else splitLoop floor k (i + 1) rem (arr.set i (floor + arr.getD (i - 1) 0))

/-- The function `splitElements` (lines 102-115); `arr` is the caller's array on entry,
whose content is unspecified. -/
def splitElements (arr : List Int) (dataSize : Nat) : List Int :=
  splitLoop ((dataSize : Int) / (THREAD_NUM : Int)) (THREAD_NUM - 1) 1
    ((dataSize : Int) % (THREAD_NUM : Int)) (arr.set 0 0)

/-- The value of `start` in thread `idx` (line 58). -/
def threadStart (endParts : List Int) (idx : Nat) : Int :=
  if idx = 0 then 0 else endParts.getD (idx - 1) 0

/-- The value of `end` in thread `idx` (line 59), for `size = cars.size()`. -/
def threadEnd (endParts : List Int) (size : Nat) (idx : Nat) : Int :=
  if idx = THREAD_NUM - 1 then (size : Int) else endParts.getD idx 0

end OpenMp

namespace Mpi

variable {D : Type}

/-! ## The order computed by `compare` is the lexicographic order on strings -/

theorem compareChars_gt_iff : ∀ (a b : List Char), compareChars a b = .gt ↔ b < a
  | [], [] => by
    simp only [compareChars]
    constructor
    · intro h; cases h
    · intro h; cases h
  | [], _ :: _ => by
    simp only [compareChars]
    constructor
    · intro h; cases h
    · intro h; cases h
  | x :: as, [] => by
    simp only [compareChars, true_iff]
    exact List.Lex.nil
  | x :: as, y :: bs => by
    have ih := compareChars_gt_iff as bs
    simp only [compareChars]
    by_cases h1 : x < y
    · simp only [h1, if_true]
      constructor
      · intro h; cases h
      · intro h
        cases h with
        | cons h2 => exact absurd h1 (lt_irrefl _)
        | rel h2 => exact absurd h1 (not_lt_of_lt h2)
    · by_cases h2 : y < x
      · simp only [h1, h2, if_true, if_false, true_iff]
        exact List.Lex.rel h2
      · simp only [h1, h2, if_false]
        rw [ih]
        have hxy : x = y := le_antisymm (not_lt.mp h2) (not_lt.mp h1)
        subst hxy
        constructor
        · intro h; exact List.Lex.cons h
        · intro h
          cases h with
          | cons h3 => exact h3
          | rel h3 => exact absurd h3 h2

theorem strCompare_gt_iff (a b : String) : strCompare a b = .gt ↔ b < a := by
  rw [String.lt_iff_toList_lt]; exact compareChars_gt_iff a.data b.data

/-! ## Shape of the array after `insertItem` -/

theorem insertLoop_shape (E : Extern D) (item : Car D) :
    ∀ (rl : List (Car D)) (h : Car D) (post : List (Car D)),
      ((insertLoop E item rl.length (rl.reverse ++ h :: post)).2.set
          (insertLoop E item rl.length (rl.reverse ++ h :: post)).1 item)
        = (placeBack item rl).reverse ++ post
  | [], h, post => by simp [insertLoop, placeBack]
  | x :: rest, h, post => by
    have hget : (((x :: rest).reverse ++ h :: post).getD rest.length (Car.mk0 E)) = x := by
      have hlen : rest.length < ((x :: rest).reverse ++ h :: post).length := by simp
      rw [List.getD_eq_getElem _ _ hlen]
      exact List.getElem_of_append (show _ = rest.reverse ++ x :: (h :: post) by simp) (by simp)
    have hset : (((x :: rest).reverse ++ h :: post).set (rest.length + 1) x)
        = rest.reverse ++ x :: (x :: post) := by
      have : ((x :: rest).reverse ++ h :: post) = (rest.reverse ++ [x]) ++ h :: post := by simp
      rw [this, List.set_append_right _ _ (by simp)]
      simp
    simp only [List.length_cons, insertLoop, hget]
    by_cases hc : strCompare x.hash item.hash = .gt
    · simp only [hc, if_true, placeBack]
      rw [hset, insertLoop_shape E item rest x (x :: post)]
      simp
    · simp only [hc, if_false, placeBack]
      have : ((x :: rest).reverse ++ h :: post) = (rest.reverse ++ [x]) ++ h :: post := by simp
      rw [this, List.set_append_right _ _ (by simp)]
      simp


theorem placeBack_length (item : Car D) :
    ∀ rl : List (Car D), (placeBack item rl).length = rl.length + 1
  | [] => rfl
  | x :: rest => by
    by_cases hc : strCompare x.hash item.hash = .gt
    · simp [placeBack, hc, placeBack_length item rest]
    · simp [placeBack, hc]

theorem placeBack_perm (item : Car D) :
    ∀ rl : List (Car D), (placeBack item rl).Perm (item :: rl)
  | [] => List.Perm.refl _
  | x :: rest => by
    by_cases hc : strCompare x.hash item.hash = .gt
    · simp only [placeBack, hc, if_true]
      exact ((placeBack_perm item rest).cons x).trans (List.Perm.swap item x rest)
    · simp only [placeBack, hc, if_false]
      exact List.Perm.refl _

theorem placeBack_descending (item : Car D) :
    ∀ rl : List (Car D), rl.Pairwise (fun a b => b.hash ≤ a.hash) →
      (placeBack item rl).Pairwise (fun a b => b.hash ≤ a.hash)
  | [], _ => List.pairwise_singleton _ _
  | x :: rest, h => by
    rw [List.pairwise_cons] at h
    by_cases hc : strCompare x.hash item.hash = .gt
    · simp only [placeBack, hc, if_true]
      rw [List.pairwise_cons]
      refine ⟨?_, placeBack_descending item rest h.2⟩
      intro y hy
      rcases List.mem_cons.mp ((placeBack_perm item rest).subset hy) with hy1 | hy1
      · rw [hy1]; exact le_of_lt ((strCompare_gt_iff _ _).mp hc)
      · exact h.1 y hy1
    · simp only [placeBack, hc, if_false]
      have hle : x.hash ≤ item.hash := not_lt.mp (fun hlt => hc ((strCompare_gt_iff _ _).mpr hlt))
      rw [List.pairwise_cons, List.pairwise_cons]
      refine ⟨?_, h⟩
      intro y hy
      rcases List.mem_cons.mp hy with hy1 | hy1
      · rw [hy1]; exact hle
      · exact le_trans (h.1 y hy1) hle

/-- The array after `insertItem`, when slot `n` exists: the first `n` entries with the item
placed from the back, followed by the untouched entries beyond slot `n`. -/
theorem insertItem_shape (E : Extern D) (cars : List (Car D)) (n : Nat) (item : Car D)
    (hn : n < cars.length) :
    (insertItem E cars n item).1
      = (placeBack item (cars.take n).reverse).reverse ++ cars.drop (n + 1) := by
  have hsplit : cars = ((cars.take n).reverse).reverse ++ cars[n] :: cars.drop (n + 1) := by
    rw [List.reverse_reverse, List.getElem_cons_drop, List.take_append_drop]
  have hlen : ((cars.take n).reverse).length = n := by
    rw [List.length_reverse, List.length_take]; omega
  have key := insertLoop_shape E item (cars.take n).reverse cars[n] (cars.drop (n + 1))
  rw [hlen, ← hsplit] at key
  simpa [insertItem] using key

theorem insertItem_take (E : Extern D) (cars : List (Car D)) (n : Nat) (item : Car D)
    (hn : n < cars.length) :
    (insertItem E cars n item).1.take (n + 1) = (placeBack item (cars.take n).reverse).reverse := by
  rw [insertItem_shape E cars n item hn]
  have hlen : ((placeBack item (cars.take n).reverse).reverse).length = n + 1 := by
    rw [List.length_reverse, placeBack_length, List.length_reverse, List.length_take]; omega
  rw [List.take_append_of_le_length (by omega)]
  exact List.take_of_length_le (by omega)

theorem insertItem_length (E : Extern D) (cars : List (Car D)) (n : Nat) (item : Car D)
    (hn : n < cars.length) : (insertItem E cars n item).1.length = cars.length := by
  rw [insertItem_shape E cars n item hn]
  simp only [List.length_append, List.length_reverse, placeBack_length, List.length_take,
    List.length_drop]
  omega

theorem sortedCheck_sound : ∀ l : List (Car D), sortedCheck l = true → SortedByHash l
  | [], _ => List.Pairwise.nil
  | [_], _ => List.pairwise_singleton _ _
  | a :: b :: rest, h => by
    simp only [sortedCheck, Bool.and_eq_true] at h
    have hne : strCompare a.hash b.hash ≠ .gt := by
      intro hgt
      rw [hgt] at h
      exact absurd h.1 (by decide)
    have ih : SortedByHash (b :: rest) := sortedCheck_sound (b :: rest) h.2
    have hab : a.hash ≤ b.hash := not_lt.mp (fun hlt => hne ((strCompare_gt_iff _ _).mpr hlt))
    unfold SortedByHash at ih ⊢
    rw [List.pairwise_cons]
    refine ⟨?_, ih⟩
    intro y hy
    rcases List.mem_cons.mp hy with hy1 | hy1
    · rw [hy1]; exact hab
    · exact le_trans hab ((List.pairwise_cons.mp ih).1 y hy1)

/-! ## C2: `insertItem` keeps the stored prefix sorted and adds exactly the item -/

theorem insertItem_inv (E : Extern D) (cars : List (Car D)) (n : Nat) (item : Car D)
    (hn : n < cars.length) (hs : SortedByHash (cars.take n)) :
    (insertItem E cars n item).2 = n + 1 ∧
      SortedByHash ((insertItem E cars n item).1.take (n + 1)) ∧
      ((insertItem E cars n item).1.take (n + 1)).Perm (item :: cars.take n) := by
  refine ⟨rfl, ?_, ?_⟩
  · rw [insertItem_take E cars n item hn]
    unfold SortedByHash at hs ⊢
    rw [List.pairwise_reverse]
    apply placeBack_descending
    rw [List.pairwise_reverse]
    exact hs
  · rw [insertItem_take E cars n item hn]
    exact (List.reverse_perm _).trans
      ((placeBack_perm item _).trans ((List.reverse_perm _).cons item))

theorem monitor_insertItem_eq (E : Extern D) (m : Monitor D) (item : Car D) :
    (m.insertItem E item).arr = (insertItem E m.arr m.count item).1 ∧
      (m.insertItem E item).count = (insertItem E m.arr m.count item).2 := by
  simp [Monitor.insertItem, insertItem]

/-- C2. For a store whose first `n` entries are sorted ascending by hash and whose slot `n`
exists, `insertItem(cars, n, item)` sets the count to `n + 1`, leaves the first `n + 1`
entries sorted ascending by hash, and these are a permutation of the old `n` entries
together with `item`.  The same holds for `Monitor::insertItem` on `arr` and `count`. -/
theorem insertItem_sorted_perm (E : Extern D) (cars : List (Car D)) (n : Nat) (item : Car D)
    (hn : n < cars.length) (hs : SortedByHash (cars.take n)) :
    ((insertItem E cars n item).2 = n + 1 ∧
      SortedByHash ((insertItem E cars n item).1.take (n + 1)) ∧
      ((insertItem E cars n item).1.take (n + 1)).Perm (item :: cars.take n)) ∧
    (∀ (capacity : Nat) (canBeFilled : Bool),
      (Monitor.insertItem E ⟨cars, n, capacity, canBeFilled⟩ item).count = n + 1 ∧
      SortedByHash ((Monitor.insertItem E ⟨cars, n, capacity, canBeFilled⟩ item).arr.take (n + 1)) ∧
      ((Monitor.insertItem E ⟨cars, n, capacity, canBeFilled⟩ item).arr.take (n + 1)).Perm
        (item :: cars.take n)) := by
  refine ⟨insertItem_inv E cars n item hn hs, ?_⟩
  intro capacity canBeFilled
  obtain ⟨h1, h2⟩ := monitor_insertItem_eq E ⟨cars, n, capacity, canBeFilled⟩ item
  rw [h1, h2]
  exact insertItem_inv E cars n item hn hs

/-- A store with three slots whose first two entries are sorted. -/
theorem insertItem_sorted_perm_witness :
    2 < sampleStore.length ∧ SortedByHash (sampleStore.take 2) ∧
    (insertItem wholeExtern sampleStore 2 ⟨"x", 2001, 7, "b"⟩).1
      = [⟨"", 0, 0, "a"⟩, ⟨"x", 2001, 7, "b"⟩, ⟨"", 0, 0, "c"⟩] ∧
    ((insertItem wholeExtern sampleStore 2 ⟨"x", 2001, 7, "b"⟩).2 = 2 + 1 ∧
      SortedByHash ((insertItem wholeExtern sampleStore 2 ⟨"x", 2001, 7, "b"⟩).1.take (2 + 1)) ∧
      ((insertItem wholeExtern sampleStore 2 ⟨"x", 2001, 7, "b"⟩).1.take (2 + 1)).Perm
        (⟨"x", 2001, 7, "b"⟩ :: sampleStore.take 2)) :=
  ⟨by decide, sortedCheck_sound _ (by decide), by decide,
    (insertItem_sorted_perm wholeExtern sampleStore 2 ⟨"x", 2001, 7, "b"⟩ (by decide)
      (sortedCheck_sound _ (by decide))).1⟩

/-! ## C3: what a Worker sends for one record -/

theorem Car.ne_mk0_self (E : Extern D) : Car.ne E (Car.mk0 E) (Car.mk0 E) = false := by
  simp [Car.ne, Car.mk0, E.ne_zero_zero]

theorem Car.ne_mk0_of_year (E : Extern D) (c : Car D) (h : c.year ≠ 0) :
    Car.ne E c (Car.mk0 E) = true := by
  simp [Car.ne, Car.mk0, h]

theorem workerSend_cases (E : Extern D) (r : Car D) :
    workerSend E r =
      if r.year < 2000 then []
      else [some { name := r.name, year := r.year, mileage := r.mileage,
                   hash := E.sha1 (r.name ++ to_string r.year ++ E.to_string_double r.mileage) }] := by
  unfold workerSend computeHash
  by_cases h : r.year < 2000
  · have h1 : ¬ FILTER_FROM_YEAR ≤ r.year := by unfold FILTER_FROM_YEAR; omega
    simp only [h, h1, if_true, if_false, Car.ne_mk0_self]
    rfl
  · have h1 : FILTER_FROM_YEAR ≤ r.year := by unfold FILTER_FROM_YEAR; omega
    have h2 : r.year ≠ 0 := by omega
    simp only [h, h1, if_true, if_false]
    rw [Car.ne_mk0_of_year E ⟨r.name, r.year, r.mileage, E.sha1 (hashInput E r)⟩ h2]
    rfl

/-- C3. For a record `r` received from the Buffer, a Worker sends nothing to the
Aggregator when `r.year < 2000`, and otherwise sends exactly one record: `r` with its hash
set to the digest of `name ++ to_string(year) ++ to_string(mileage)`; the test
`car != Car()` never drops a record with `year >= 2000`. -/
theorem workerSend_eq (E : Extern D) (r : Car D) :
    workerSend E r =
      if r.year < 2000 then []
      else [some { name := r.name, year := r.year, mileage := r.mileage,
                   hash := E.sha1 (r.name ++ to_string r.year ++ E.to_string_double r.mileage) }] :=
  workerSend_cases E r

/-! ## C1: the Aggregator's store is the sorted, hashed, filtered input -/

theorem workerPayloads_eq (E : Extern D) :
    ∀ arrival : List (Car D),
      workerPayloads E arrival
        = (arrival.filter (fun r => decide (FILTER_FROM_YEAR ≤ r.year))).map (withHash E)
  | [] => rfl
  | r :: rest => by
    have ih := workerPayloads_eq E rest
    unfold workerPayloads at ih ⊢
    rw [List.flatMap_cons, List.reduceOption_append, ih, workerSend_cases]
    by_cases h : r.year < 2000
    · have h1 : ¬ FILTER_FROM_YEAR ≤ r.year := by unfold FILTER_FROM_YEAR; omega
      simp [h, h1, List.reduceOption]
    · have h1 : FILTER_FROM_YEAR ≤ r.year := by unfold FILTER_FROM_YEAR; omega
      simp [h, h1, List.reduceOption, withHash]

theorem insertAll_inv (E : Extern D) :
    ∀ (items buf : List (Car D)) (n : Nat), n + items.length ≤ buf.length →
      SortedByHash (buf.take n) →
      (insertAll E (buf, n) items).2 = n + items.length ∧
      (insertAll E (buf, n) items).1.length = buf.length ∧
      SortedByHash ((insertAll E (buf, n) items).1.take (insertAll E (buf, n) items).2) ∧
      ((insertAll E (buf, n) items).1.take (insertAll E (buf, n) items).2).Perm
        (buf.take n ++ items)
  | [], buf, n, _, hs => by
    simp only [insertAll, List.foldl_nil, List.length_nil, Nat.add_zero, List.append_nil]
    exact ⟨trivial, trivial, hs, List.Perm.refl _⟩
  | item :: rest, buf, n, hlen, hs => by
    have hn : n < buf.length := by simp only [List.length_cons] at hlen; omega
    obtain ⟨h1, h2, h3⟩ := insertItem_inv E buf n item hn hs
    have h4 := insertItem_length E buf n item hn
    have hstep : insertAll E (buf, n) (item :: rest)
        = insertAll E ((insertItem E buf n item).1, n + 1) rest := by
      simp only [insertAll, List.foldl_cons]
      rfl
    have ih := insertAll_inv E rest (insertItem E buf n item).1 (n + 1)
      (by rw [h4]; simp only [List.length_cons] at hlen; omega) h2
    rw [hstep]
    refine ⟨?_, ?_, ih.2.2.1, ?_⟩
    · rw [ih.1]; simp only [List.length_cons]; omega
    · rw [ih.2.1, h4]
    · refine ih.2.2.2.trans ?_
      refine (List.Perm.append_right rest h3).trans ?_
      exact List.perm_middle.symm

/-- C1. For every input and every order `arrival` (a permutation of the input) in which
the records pass through the Workers to the Aggregator, hashing each record with
`computeHash` and calling `insertItem` for each record that is not dropped, starting from
the empty store of `input.length` slots, leaves a stored sequence that is sorted ascending
by hash and is a permutation of the hashed input records with `year >= 2000`; its length is
the number of input records with `year >= 2000`. -/
theorem pipeline_sorted_perm (E : Extern D) (input arrival : List (Car D))
    (hperm : arrival.Perm input) :
    (insertAll E (List.replicate input.length (Car.mk0 E), 0) (workerPayloads E arrival)).2
        = (input.filter (fun c => decide (2000 ≤ c.year))).length ∧
      SortedByHash
        ((insertAll E (List.replicate input.length (Car.mk0 E), 0) (workerPayloads E arrival)).1.take
          (insertAll E (List.replicate input.length (Car.mk0 E), 0) (workerPayloads E arrival)).2) ∧
      ((insertAll E (List.replicate input.length (Car.mk0 E), 0) (workerPayloads E arrival)).1.take
          (insertAll E (List.replicate input.length (Car.mk0 E), 0) (workerPayloads E arrival)).2).Perm
        ((input.filter (fun c => decide (2000 ≤ c.year))).map (withHash E)) := by
  have hp : (workerPayloads E arrival).Perm
      ((input.filter (fun c => decide (2000 ≤ c.year))).map (withHash E)) := by
    rw [workerPayloads_eq]
    exact (hperm.filter _).map _
  have hlen : 0 + (workerPayloads E arrival).length
      ≤ (List.replicate input.length (Car.mk0 E)).length := by
    rw [workerPayloads_eq, List.length_map, List.length_replicate, Nat.zero_add, ← hperm.length_eq]
    exact List.length_filter_le _ _
  obtain ⟨h1, _, h3, h4⟩ := insertAll_inv E (workerPayloads E arrival)
    (List.replicate input.length (Car.mk0 E)) 0 hlen (by simp [SortedByHash])
  refine ⟨?_, h3, ?_⟩
  · rw [h1, Nat.zero_add, hp.length_eq, List.length_map]
  · simpa using h4.trans hp

theorem pipeline_sorted_perm_witness :
    scenarioArrival.Perm scenarioInput ∧
    insertAll wholeExtern (List.replicate 3 (Car.mk0 wholeExtern), 0)
        (workerPayloads wholeExtern scenarioArrival)
      = ([⟨"B", 2005, 20, "B200520.000000"⟩, ⟨"C", 2010, 5, "C20105.000000"⟩, ⟨"", 0, 0, ""⟩], 2) ∧
    ((insertAll wholeExtern (List.replicate scenarioInput.length (Car.mk0 wholeExtern), 0)
          (workerPayloads wholeExtern scenarioArrival)).2
        = (scenarioInput.filter (fun c => decide (2000 ≤ c.year))).length ∧
      SortedByHash
        ((insertAll wholeExtern (List.replicate scenarioInput.length (Car.mk0 wholeExtern), 0)
            (workerPayloads wholeExtern scenarioArrival)).1.take
          (insertAll wholeExtern (List.replicate scenarioInput.length (Car.mk0 wholeExtern), 0)
            (workerPayloads wholeExtern scenarioArrival)).2) ∧
      ((insertAll wholeExtern (List.replicate scenarioInput.length (Car.mk0 wholeExtern), 0)
            (workerPayloads wholeExtern scenarioArrival)).1.take
          (insertAll wholeExtern (List.replicate scenarioInput.length (Car.mk0 wholeExtern), 0)
            (workerPayloads wholeExtern scenarioArrival)).2).Perm
        ((scenarioInput.filter (fun c => decide (2000 ≤ c.year))).map (withHash wholeExtern))) :=
  ⟨by decide, by decide,
    pipeline_sorted_perm wholeExtern scenarioInput scenarioArrival (by decide)⟩

/-! ## Buffer: invariants of `dataProcess` -/

theorem dataInit_WF (E : Extern D) (bufSize : Nat) : (dataInit E bufSize).WF bufSize := by
  simp [dataInit, DataState.WF]

theorem dataStep_WF (E : Extern D) (bufSize : Nat) (s : DataState D) (r : Request D)
    (h : s.WF bufSize) : (dataStep E bufSize s r).1.WF bufSize := by
  obtain ⟨h1, h2, h3⟩ := h
  unfold dataStep
  split_ifs <;> simp only [DataState.WF, List.length_set] <;> refine ⟨h1, ?_, ?_⟩ <;> omega

theorem dataStates_WF (E : Extern D) (bufSize : Nat) :
    ∀ (reqs : List (Request D)) (s : DataState D), s.WF bufSize →
      ∀ t ∈ dataStates E bufSize s reqs, t.WF bufSize
  | [], _, _, t, ht => by simp [dataStates] at ht
  | r :: rs, s, hs, t, ht => by
    unfold dataStates at ht
    split_ifs at ht
    · rcases List.mem_cons.mp ht with h | h
      · rw [h]; exact dataStep_WF E bufSize s r hs
      · exact dataStates_WF E bufSize rs _ (dataStep_WF E bufSize s r hs) t h
    · simp at ht

/-- C4. For every capacity `K >= 0` and every finite sequence of requests handled by the
Buffer loop from the empty buffer, the count satisfies `0 <= count <= K` after every
request. -/
theorem buffer_count_bounded (E : Extern D) (K : Nat) (reqs : List (Request D))
    (s : DataState D) (hs : s ∈ dataStates E K (dataInit E K) reqs) :
    0 ≤ s.count ∧ s.count ≤ (K : Int) :=
  (dataStates_WF E K reqs (dataInit E K) (dataInit_WF E K) s hs).2

theorem take_set_succ {α : Type} : ∀ (l : List α) (n : Nat) (a : α), n < l.length →
    (l.set n a).take (n + 1) = l.take n ++ [a]
  | [], _, _, h => by simp at h
  | _ :: _, 0, _, _ => by simp
  | x :: l, n + 1, a, h => by
    have h1 : n < l.length := by simpa using h
    simp [take_set_succ l n a h1]

theorem take_set_self {α : Type} : ∀ (l : List α) (n : Nat) (a : α),
    (l.set n a).take n = l.take n
  | [], _, _ => by simp
  | _ :: _, 0, _ => by simp
  | x :: l, n + 1, a => by simp [take_set_self l n a]

theorem take_pred_append {α : Type} (l : List α) (n : Nat) (d : α) (h0 : 0 < n)
    (h : n ≤ l.length) : l.take n = l.take (n - 1) ++ [l.getD (n - 1) d] := by
  have h1 : n - 1 < l.length := by omega
  have h2 : n = (n - 1) + 1 := by omega
  rw [List.getD_eq_getElem l d h1]
  conv => lhs; rw [h2]
  rw [List.take_succ, List.getElem?_eq_getElem h1]
  rfl

theorem buffer_count_bounded_witness :
    (dataStates wholeExtern 1 (dataInit wholeExtern 1) sampleReqs).map DataState.count
      = [1, 1, 0, 1, 1, 0] ∧
    (⟨[carA], 1, true⟩ : DataState Nat) ∈ dataStates wholeExtern 1 (dataInit wholeExtern 1) sampleReqs ∧
    ((0 : Int) ≤ (⟨[carA], 1, true⟩ : DataState Nat).count ∧
      (⟨[carA], 1, true⟩ : DataState Nat).count ≤ ((1 : Nat) : Int)) :=
  ⟨by decide, by decide,
    buffer_count_bounded wholeExtern 1 sampleReqs ⟨[carA], 1, true⟩ (by decide)⟩

/-! ## C5: the `INSERT` branch -/

/-- C5. In a Buffer state with `count` stored records and capacity `K`, an `INSERT` request
is answered `ACCEPT` exactly when `count < K`; the payload is then received and stored at
index `count` as the new top entry, `count` grows by one and every other entry is
unchanged.  Otherwise the answer is `REJECT`, no payload is received and the state is
unchanged. -/
theorem dataStep_insert (E : Extern D) (K : Nat) (s : DataState D) (r : Request D)
    (hwf : s.WF K) (hr : r.request = INSERT) :
    (s.count < (K : Int) →
      (dataStep E K s r).2
          = [.send r.source TO_MAIN (.int ACCEPT), .recvEntry r.source TO_DATA] ∧
        (dataStep E K s r).1.count = s.count + 1 ∧
        (dataStep E K s r).1.buffer[s.count.toNat]? = some r.entry ∧
        (∀ i : Nat, i ≠ s.count.toNat → (dataStep E K s r).1.buffer[i]? = s.buffer[i]?) ∧
        (dataStep E K s r).1.stored = s.stored ++ [r.entry] ∧
        (dataStep E K s r).1.isDataSending = s.isDataSending) ∧
    (¬ s.count < (K : Int) →
      (dataStep E K s r).2 = [.send r.source TO_MAIN (.int REJECT)] ∧
        (dataStep E K s r).1 = s) := by
  obtain ⟨h1, h2, h3⟩ := hwf
  constructor
  · intro hlt
    have hidx : s.count.toNat < s.buffer.length := by omega
    have hnat : (s.count + 1).toNat = s.count.toNat + 1 := by omega
    simp only [dataStep, hr, hlt, if_true]
    refine ⟨trivial, trivial, ?_, ?_, ?_, trivial⟩
    · exact List.getElem?_set_self hidx
    · intro i hi
      exact List.getElem?_set_ne (Ne.symm hi)
    · simp only [DataState.stored]
      rw [hnat]
      exact take_set_succ _ _ _ hidx
  · intro hge
    simp only [dataStep, hr, hge, if_true, if_false]
    exact ⟨trivial, trivial⟩

theorem dataStep_insert_witness :
    (dataInit wholeExtern 1).WF 1 ∧ (⟨0, INSERT, carA⟩ : Request Nat).request = INSERT ∧
    (dataInit wholeExtern 1).count < ((1 : Nat) : Int) ∧
    dataStep wholeExtern 1 (dataInit wholeExtern 1) ⟨0, INSERT, carA⟩
      = (⟨[carA], 1, true⟩, [.send 0 TO_MAIN (.int ACCEPT), .recvEntry 0 TO_DATA]) ∧
    (dataStep wholeExtern 1 (dataInit wholeExtern 1) ⟨0, INSERT, carA⟩).1.stored
      = (dataInit wholeExtern 1).stored ++ [carA] ∧
    (⟨[carA], 1, true⟩ : DataState Nat).WF 1 ∧
    ((dataStep wholeExtern 1 ⟨[carA], 1, true⟩ ⟨0, INSERT, carB⟩).2
        = [.send 0 TO_MAIN (.int REJECT)] ∧
      (dataStep wholeExtern 1 ⟨[carA], 1, true⟩ ⟨0, INSERT, carB⟩).1 = ⟨[carA], 1, true⟩) :=
  ⟨dataInit_WF wholeExtern 1, rfl, by decide, by decide,
    ((dataStep_insert wholeExtern 1 (dataInit wholeExtern 1) ⟨0, INSERT, carA⟩
      (dataInit_WF wholeExtern 1) rfl).1 (by decide)).2.2.2.2.1,
    ⟨rfl, by decide, by decide⟩,
    (dataStep_insert wholeExtern 1 ⟨[carA], 1, true⟩ ⟨0, INSERT, carB⟩
      ⟨rfl, by decide, by decide⟩ rfl).2 (by decide)⟩

/-! ## C6: the `REMOVE` branch -/

/-- C6. In a Buffer state, a `REMOVE` request is answered `ACCEPT` exactly when
`count > 0`; the record then sent is the top of the stored stack, i.e. the most recently
inserted record still stored, `count` drops by one and the remaining entries are unchanged.
When `count == 0` the answer is `REJECT` and the state is unchanged.  An accepted `INSERT`
of a record directly followed by a `REMOVE` returns that record and restores the stored
records and the count. -/
theorem dataStep_remove (E : Extern D) (K : Nat) (s : DataState D) (r : Request D)
    (hwf : s.WF K) (hr : r.request = REMOVE) :
    (s.count > 0 →
      (dataStep E K s r).2
          = [.send r.source TO_WORKER (.int ACCEPT),
             .send r.source TO_WORKER (.entry (s.buffer.getD (s.count - 1).toNat (Car.mk0 E)))] ∧
        s.stored
          = (dataStep E K s r).1.stored ++ [s.buffer.getD (s.count - 1).toNat (Car.mk0 E)] ∧
        (dataStep E K s r).1.count = s.count - 1 ∧
        (dataStep E K s r).1.buffer = s.buffer ∧
        (dataStep E K s r).1.isDataSending = s.isDataSending) ∧
    (¬ s.count > 0 →
      (dataStep E K s r).2 = [.send r.source TO_WORKER (.int REJECT)] ∧
        (dataStep E K s r).1 = s) ∧
    (∀ ins : Request D, ins.request = INSERT → s.count < (K : Int) →
      (dataStep E K (dataStep E K s ins).1 r).2
          = [.send r.source TO_WORKER (.int ACCEPT),
             .send r.source TO_WORKER (.entry ins.entry)] ∧
        (dataStep E K (dataStep E K s ins).1 r).1.stored = s.stored ∧
        (dataStep E K (dataStep E K s ins).1 r).1.count = s.count) := by
  obtain ⟨h1, h2, h3⟩ := hwf
  have hne : REMOVE ≠ INSERT := by decide
  refine ⟨?_, ?_, ?_⟩
  · intro hpos
    simp only [dataStep, hr, hne, hpos, if_true, if_false]
    refine ⟨trivial, ?_, trivial, trivial, trivial⟩
    simp only [DataState.stored]
    have hnat : (s.count - 1).toNat = s.count.toNat - 1 := by omega
    rw [hnat]
    exact take_pred_append s.buffer s.count.toNat (Car.mk0 E) (by omega) (by omega)
  · intro hz
    simp only [dataStep, hr, hne, hz, if_true, if_false]
    exact ⟨trivial, trivial⟩
  · intro ins hins hlt
    have hidx : s.count.toNat < s.buffer.length := by omega
    have hpos : s.count + 1 > 0 := by omega
    simp only [dataStep, hr, hins, hne, hlt, hpos, if_true, if_false, DataState.stored]
    have e1 : (s.count + 1 - 1).toNat = s.count.toNat := by
      rw [Int.add_sub_cancel]
    have e2 : s.count + 1 - 1 = s.count := Int.add_sub_cancel _ _
    rw [e1, e2]
    refine ⟨?_, ?_, rfl⟩
    · rw [List.getD_eq_getElem _ _ (by rw [List.length_set]; exact hidx)]
      simp
    · exact take_set_self _ _ _

theorem dataStep_remove_witness :
    (⟨[carA, carB], 2, true⟩ : DataState Nat).WF 2 ∧
    (⟨3, REMOVE, Car.mk0 wholeExtern⟩ : Request Nat).request = REMOVE ∧
    dataStep wholeExtern 2 ⟨[carA, carB], 2, true⟩ ⟨3, REMOVE, Car.mk0 wholeExtern⟩
      = (⟨[carA, carB], 1, true⟩,
          [.send 3 TO_WORKER (.int ACCEPT), .send 3 TO_WORKER (.entry carB)]) ∧
    ((⟨[carA, carB], 2, true⟩ : DataState Nat).count > 0 →
      (⟨[carA, carB], 2, true⟩ : DataState Nat).stored
        = (dataStep wholeExtern 2 ⟨[carA, carB], 2, true⟩
            ⟨3, REMOVE, Car.mk0 wholeExtern⟩).1.stored
          ++ [([carA, carB] : List (Car Nat)).getD ((2 : Int) - 1).toNat (Car.mk0 wholeExtern)]) ∧
    (dataInit wholeExtern 2).WF 2 ∧
    ((dataStep wholeExtern 2 (dataInit wholeExtern 2) ⟨3, REMOVE, Car.mk0 wholeExtern⟩).2
        = [.send 3 TO_WORKER (.int REJECT)] ∧
      (dataStep wholeExtern 2 (dataInit wholeExtern 2) ⟨3, REMOVE, Car.mk0 wholeExtern⟩).1
        = dataInit wholeExtern 2) :=
  ⟨⟨rfl, by decide, by decide⟩, rfl, by decide,
    fun h => ((dataStep_remove wholeExtern 2 ⟨[carA, carB], 2, true⟩
      ⟨3, REMOVE, Car.mk0 wholeExtern⟩ ⟨rfl, by decide, by decide⟩ rfl).1 h).2.1,
    dataInit_WF wholeExtern 2,
    (dataStep_remove wholeExtern 2 (dataInit wholeExtern 2) ⟨3, REMOVE, Car.mk0 wholeExtern⟩
      (dataInit_WF wholeExtern 2) rfl).2.1 (by decide)⟩

/-! ## C7: when the Buffer loop stops, and what it sends then -/

theorem dataStep_isDataSending (E : Extern D) (K : Nat) (s : DataState D) (r : Request D) :
    (dataStep E K s r).1.isDataSending = (s.isDataSending && decide (r.request ≠ END)) := by
  have h1 : INSERT ≠ END := by decide
  have h2 : REMOVE ≠ END := by decide
  unfold dataStep
  split_ifs with a b c d e <;> simp_all

theorem dataRun_cons (E : Extern D) (K : Nat) (s : DataState D) (r : Request D)
    (rs : List (Request D)) :
    dataRun E K s (r :: rs) = dataRun E K (dataStep E K s r).1 rs := rfl

theorem dataRun_isDataSending (E : Extern D) (K : Nat) :
    ∀ (reqs : List (Request D)) (s : DataState D),
      (dataRun E K s reqs).isDataSending
        = (s.isDataSending && reqs.all (fun r => decide (r.request ≠ END)))
  | [], s => by simp [dataRun]
  | r :: rs, s => by
    rw [dataRun_cons, dataRun_isDataSending E K rs, dataStep_isDataSending, List.all_cons,
      Bool.and_assoc]

theorem dataRun_WF (E : Extern D) (K : Nat) :
    ∀ (reqs : List (Request D)) (s : DataState D), s.WF K → (dataRun E K s reqs).WF K
  | [], _, h => h
  | r :: rs, s, h => by
    rw [dataRun_cons]
    exact dataRun_WF E K rs _ (dataStep_WF E K s r h)

theorem dataRun_stopped_iff (E : Extern D) (K : Nat) (reqs : List (Request D)) :
    (dataRun E K (dataInit E K) reqs).running = false ↔
      ((∃ q ∈ reqs, q.request = END) ∧ (dataRun E K (dataInit E K) reqs).count = 0) := by
  have hwf := dataRun_WF E K reqs (dataInit E K) (dataInit_WF E K)
  have hsend := dataRun_isDataSending E K reqs (dataInit E K)
  have hinit : (dataInit E K).isDataSending = true := rfl
  rw [hinit, Bool.true_and] at hsend
  have hc : 0 ≤ (dataRun E K (dataInit E K) reqs).count := hwf.2.1
  unfold DataState.running
  rw [hsend, Bool.or_eq_false_iff]
  constructor
  · rintro ⟨h1, h2⟩
    refine ⟨?_, ?_⟩
    · have : ¬ ∀ x ∈ reqs, x.request ≠ END := by
        intro hall
        have : reqs.all (fun r => decide (r.request ≠ END)) = true := by
          rw [List.all_eq_true]; intro x hx; exact decide_eq_true (hall x hx)
        rw [this] at h1; exact absurd h1 (by decide)
      push_neg at this
      exact this
    · have : ¬ (dataRun E K (dataInit E K) reqs).count > 0 := of_decide_eq_false h2
      omega
  · rintro ⟨⟨q, hq, hqe⟩, h2⟩
    refine ⟨?_, ?_⟩
    · rw [List.all_eq_false]
      exact ⟨q, hq, by simp [hqe]⟩
    · exact decide_eq_false (by omega)

theorem dataLoop_spec (E : Extern D) (K : Nat) :
    ∀ (reqs : List (Request D)) (s : DataState D),
      ∃ handled rest, reqs = handled ++ rest ∧
        (dataLoop E K s reqs).1 = dataRun E K s handled ∧
        (dataLoop E K s reqs).2.2 = rest ∧
        (∀ p, p <+: handled → p ≠ handled → (dataRun E K s p).running = true) ∧
        (rest ≠ [] → (dataRun E K s handled).running = false)
  | [], s => ⟨[], [], rfl, rfl, rfl, by
      intro p hp hne
      exact absurd (List.prefix_nil.mp hp) hne, by intro h; exact absurd rfl h⟩
  | r :: rs, s => by
    by_cases hrun : s.running = true
    · obtain ⟨handled, rest, h1, h2, h3, h4, h5⟩ := dataLoop_spec E K rs (dataStep E K s r).1
      refine ⟨r :: handled, rest, by rw [h1]; rfl, ?_, ?_, ?_, ?_⟩
      · simp only [dataLoop, hrun, if_true, dataRun_cons]; exact h2
      · simp only [dataLoop, hrun, if_true]; exact h3
      · intro p hp hne
        cases p with
        | nil => exact hrun
        | cons x p1 =>
          rw [List.cons_prefix_cons] at hp
          obtain ⟨hx, hp1⟩ := hp
          subst hx
          rw [dataRun_cons]
          exact h4 p1 hp1 (fun h => hne (by rw [h]))
      · intro hr
        rw [dataRun_cons]
        exact h5 hr
    · have hstop : s.running = false := by simpa using hrun
      refine ⟨[], r :: rs, rfl, ?_, ?_, ?_, ?_⟩
      · simp only [dataLoop, hstop]; rfl
      · simp only [dataLoop, hstop]; rfl
      · intro p hp hne
        exact absurd (List.prefix_nil.mp hp) hne
      · intro _; exact hstop

theorem dataStep_no_done (E : Extern D) (K : Nat) (s : DataState D) (r : Request D) (d : Nat) :
    (dataStep E K s r).2.filter (isDoneTo d) = [] := by
  have h1 : ACCEPT ≠ END := by decide
  have h2 : REJECT ≠ END := by decide
  unfold dataStep
  split_ifs <;> simp [isDoneTo, h1, h2]

theorem dataLoop_no_done (E : Extern D) (K : Nat) (d : Nat) :
    ∀ (reqs : List (Request D)) (s : DataState D),
      (dataLoop E K s reqs).2.1.filter (isDoneTo d) = []
  | [], _ => rfl
  | r :: rs, s => by
    unfold dataLoop
    split_ifs
    · simp only [List.filter_append, dataStep_no_done, dataLoop_no_done E K d rs, List.append_nil]
    · rfl

theorem doneNotices_count (d : Nat) :
    ∀ W : Nat, ((doneNotices W : List (Action D)).filter (isDoneTo d)).length
      = if WORKER_PROC ≤ d ∧ d < WORKER_PROC + W then 1 else 0
  | 0 => by
    have : ¬ (WORKER_PROC ≤ d ∧ d < WORKER_PROC + 0) := by omega
    rw [if_neg this]
    simp [doneNotices]
  | W + 1 => by
    have ih : ((doneNotices W : List (Action D)).filter (isDoneTo d)).length
        = if WORKER_PROC ≤ d ∧ d < WORKER_PROC + W then 1 else 0 := doneNotices_count d W
    unfold doneNotices at ih ⊢
    rw [List.range_succ, List.map_append, List.filter_append, List.length_append, ih]
    simp only [List.map_cons, List.map_nil, List.filter_cons, List.filter_nil, isDoneTo]
    by_cases h1 : WORKER_PROC + W = d
    · have a1 : ¬ (WORKER_PROC ≤ d ∧ d < WORKER_PROC + W) := by omega
      have a2 : WORKER_PROC ≤ d ∧ d < WORKER_PROC + (W + 1) := by omega
      simp [h1, a1, a2]
    · by_cases h2 : WORKER_PROC ≤ d ∧ d < WORKER_PROC + W
      · have a2 : WORKER_PROC ≤ d ∧ d < WORKER_PROC + (W + 1) := by omega
        simp [h1, h2, a2]
      · have a2 : ¬ (WORKER_PROC ≤ d ∧ d < WORKER_PROC + (W + 1)) := by omega
        simp [h1, h2, a2]

/-- C7. The Buffer loop handles a prefix `handled` of the incoming requests and leaves the
rest unread.  After any handled requests `p` the loop condition is false exactly when an
`END` request is among `p` and `count == 0`; it was true before each handled request, so
the loop never stops earlier, and it leaves requests unread only by stopping.  On stopping,
`dataProcess` sends one `END` notice to each rank `WORKER_PROC .. WORKER_PROC + W - 1` and
none to any other rank; while the loop runs no `END` notice is sent. -/
theorem dataProcess_stops (E : Extern D) (K W : Nat) (reqs : List (Request D)) :
    ∃ handled rest, reqs = handled ++ rest ∧
      (dataLoop E K (dataInit E K) reqs).1 = dataRun E K (dataInit E K) handled ∧
      (dataLoop E K (dataInit E K) reqs).2.2 = rest ∧
      (∀ p, p <+: handled → p ≠ handled → (dataRun E K (dataInit E K) p).running = true) ∧
      (rest ≠ [] → (dataRun E K (dataInit E K) handled).running = false) ∧
      (∀ p : List (Request D), (dataRun E K (dataInit E K) p).running = false ↔
        ((∃ q ∈ p, q.request = END) ∧ (dataRun E K (dataInit E K) p).count = 0)) ∧
      dataProcess E K W reqs
        = (if (dataRun E K (dataInit E K) handled).running then none
           else some ((dataLoop E K (dataInit E K) reqs).2.1 ++ doneNotices W)) ∧
      (∀ acts, dataProcess E K W reqs = some acts → ∀ d : Nat,
        (acts.filter (isDoneTo d)).length
          = if WORKER_PROC ≤ d ∧ d < WORKER_PROC + W then 1 else 0) := by
  obtain ⟨handled, rest, h1, h2, h3, h4, h5⟩ := dataLoop_spec E K reqs (dataInit E K)
  refine ⟨handled, rest, h1, h2, h3, h4, h5, dataRun_stopped_iff E K, ?_, ?_⟩
  · simp only [dataProcess, h2]
  · intro acts hacts d
    simp only [dataProcess] at hacts
    split_ifs at hacts
    cases hacts
    rw [List.filter_append, dataLoop_no_done, List.nil_append]
    exact doneNotices_count d W

theorem dataProcess_stops_witness :
    dataProcess wholeExtern 1 2 sampleReqs
      = some [.send 0 TO_MAIN (.int ACCEPT), .recvEntry 0 TO_DATA,
              .send 0 TO_MAIN (.int REJECT),
              .send 3 TO_WORKER (.int ACCEPT), .send 3 TO_WORKER (.entry carA),
              .send 0 TO_MAIN (.int ACCEPT), .recvEntry 0 TO_DATA,
              .send 4 TO_WORKER (.int ACCEPT), .send 4 TO_WORKER (.entry carB),
              .send 3 TO_WORKER (.int END), .send 4 TO_WORKER (.int END)] ∧
    (dataLoop wholeExtern 1 (dataInit wholeExtern 1) sampleReqs).2.2
      = [⟨3, REMOVE, Car.mk0 wholeExtern⟩] ∧
    (∃ handled rest, sampleReqs = handled ++ rest ∧
      (dataLoop wholeExtern 1 (dataInit wholeExtern 1) sampleReqs).2.2 = rest ∧
      (rest ≠ [] → (dataRun wholeExtern 1 (dataInit wholeExtern 1) handled).running = false)) := by
  obtain ⟨handled, rest, h1, _, h3, _, h5, _⟩ := dataProcess_stops wholeExtern 1 2 sampleReqs
  exact ⟨by decide, by decide, handled, rest, h1, h3, h5⟩

/-! ## C8: the Aggregator's delivery and the Source's collect loop -/

theorem resultLoop_spec (E : Extern D) (W : Nat) :
    ∀ (pre post : List (Option (Car D))) (s : ResultState D),
      s.workersFinished + (pre.filter Option.isNone).length + 1 = W →
      resultLoop E W s (pre ++ none :: post)
        = some (⟨(insertAll E (s.buffer, s.count) pre.reduceOption).1,
                 (insertAll E (s.buffer, s.count) pre.reduceOption).2, W⟩, post)
  | [], post, s, h => by
    simp only [List.filter_nil, List.length_nil, Nat.add_zero] at h
    have hge : s.workersFinished + 1 ≥ W := by omega
    simp only [List.nil_append, resultLoop, hge, if_true, List.reduceOption_nil, insertAll,
      List.foldl_nil]
    rw [h]
  | some car :: pre, post, s, h => by
    have h1 : ((some car :: pre).filter Option.isNone).length
        = (pre.filter Option.isNone).length := by simp
    rw [h1] at h
    simp only [List.cons_append, resultLoop, List.append_eq]
    rw [resultLoop_spec E W pre post
      ⟨(insertItem E s.buffer s.count car).1, (insertItem E s.buffer s.count car).2,
        s.workersFinished⟩ h]
    simp [List.reduceOption_cons_of_some, insertAll]
  | none :: pre, post, s, h => by
    have h1 : ((none :: pre).filter Option.isNone).length
        = (pre.filter Option.isNone).length + 1 := by simp
    rw [h1] at h
    have hlt : ¬ s.workersFinished + 1 ≥ W := by omega
    simp only [List.cons_append, resultLoop, hlt, if_false, List.append_eq]
    rw [resultLoop_spec E W pre post ⟨s.buffer, s.count, s.workersFinished + 1⟩
      (by simp only; omega)]
    simp [List.reduceOption_cons_of_none]

theorem range_map_getD {α : Type} (l : List α) (d : α) :
    ∀ n : Nat, n ≤ l.length → (List.range n).map (fun i => l.getD i d) = l.take n
  | 0, _ => by simp
  | n + 1, h => by
    have hn : n < l.length := by omega
    rw [List.range_succ, List.map_append, range_map_getD l d n (by omega), List.take_succ,
      List.getElem?_eq_getElem hn, List.map_cons, List.map_nil, List.getD_eq_getElem l d hn]
    rfl

theorem collectLoop_spec :
    ∀ (cs acc : List (Car D)) (tail : List (Option (Car D))),
      collectLoop acc (cs.map some ++ none :: tail) = some (acc ++ cs, tail)
  | [], acc, tail => by simp [collectLoop]
  | c :: cs, acc, tail => by
    simp only [List.map_cons, List.cons_append, collectLoop, List.append_eq]
    rw [collectLoop_spec cs (acc ++ [c]) tail]
    simp

theorem resultSends_eq (E : Extern D) (s : ResultState D) (h : s.count ≤ s.buffer.length) :
    resultSends E s = s.stored.map some ++ [none] := by
  unfold resultSends ResultState.stored
  rw [← range_map_getD s.buffer (Car.mk0 E) s.count h, List.map_map]
  rfl

/-- C8. With Worker count `W >= 1`, let the messages reaching the Aggregator be `pre`,
then a zero-length notice that is the `W`-th one, then `post`, with no more payloads in
`pre` than the store has slots.  The receive loop stops at that notice, leaving `post`
unread; the store then holds the payloads of `pre`, sorted ascending by hash.
`resultProcess` sends the stored records in index order followed by exactly one
zero-length terminator, and the Source's collect loop run on that stream returns exactly
the stored sequence, in the same order, reading nothing after the terminator. -/
theorem aggregator_delivers (E : Extern D) (bufSize W : Nat) (pre post : List (Option (Car D)))
    (hW : 1 ≤ W) (hnot : (pre.filter Option.isNone).length = W - 1)
    (hcap : pre.reduceOption.length ≤ bufSize) :
    ∃ s : ResultState D,
      resultLoop E W (resultInit E bufSize) (pre ++ none :: post) = some (s, post) ∧
      s.workersFinished = W ∧
      s.count = pre.reduceOption.length ∧
      SortedByHash s.stored ∧
      s.stored.Perm pre.reduceOption ∧
      resultProcess E bufSize W (pre ++ none :: post) = some (s.stored.map some ++ [none]) ∧
      (∀ tail : List (Option (Car D)),
        collectLoop [] ((s.stored.map some ++ [none]) ++ tail) = some (s.stored, tail)) := by
  have hloop := resultLoop_spec E W pre post (resultInit E bufSize)
    (by simp only [resultInit]; omega)
  have hlen : 0 + pre.reduceOption.length ≤ (List.replicate bufSize (Car.mk0 E)).length := by
    rw [List.length_replicate]; omega
  obtain ⟨h1, h2, h3, h4⟩ := insertAll_inv E pre.reduceOption
    (List.replicate bufSize (Car.mk0 E)) 0 hlen (by simp [SortedByHash])
  rw [Nat.zero_add] at h1
  refine ⟨_, hloop, rfl, h1, h3, by simpa using h4, ?_, ?_⟩
  · unfold resultProcess
    rw [hloop, Option.map_some']
    exact congrArg some (resultSends_eq E _
      (by simp only [resultInit]; rw [h2, h1, List.length_replicate]; exact hcap))
  · intro tail
    rw [List.append_assoc]
    exact collectLoop_spec _ [] tail

theorem aggregator_delivers_witness :
    1 ≤ 2 ∧ (sampleMsgs.filter Option.isNone).length = 2 - 1 ∧
    sampleMsgs.reduceOption.length ≤ 3 ∧
    resultProcess wholeExtern 3 2 (sampleMsgs ++ none :: [some carA])
      = some [some ⟨"D", 2001, 1, "a"⟩, some ⟨"B", 2005, 20, "b"⟩, some ⟨"C", 2010, 5, "c"⟩,
              none] ∧
    (∃ s : ResultState Nat,
      resultLoop wholeExtern 2 (resultInit wholeExtern 3) (sampleMsgs ++ none :: [some carA])
        = some (s, [some carA]) ∧
      s.count = sampleMsgs.reduceOption.length ∧
      resultProcess wholeExtern 3 2 (sampleMsgs ++ none :: [some carA])
        = some (s.stored.map some ++ [none]) ∧
      collectLoop [] ((s.stored.map some ++ [none]) ++ []) = some (s.stored, [])) := by
  obtain ⟨s, h1, _, h3, _, _, h6, h7⟩ :=
    aggregator_delivers wholeExtern 3 2 sampleMsgs [some carA] (by decide) (by decide)
      (by decide)
  exact ⟨by decide, by decide, by decide, by decide, s, h1, h3, h6, h7 []⟩

/-! ## Decimal text of integers is injective -/

theorem digitChar_val : ∀ d : Nat, d < 10 → (Nat.digitChar d).toNat - 48 = d := by
  decide

theorem digitChar_ne_minus : ∀ d : Nat, d < 10 → Nat.digitChar d ≠ '-' := by
  decide

theorem toDigitsCore_spec : ∀ (fuel n : Nat) (acc : List Char), n < fuel →
    ∃ c ds, Nat.toDigitsCore 10 fuel n acc = (c :: ds) ++ acc ∧
      (c :: ds).foldl (fun a x => a * 10 + (x.toNat - 48)) 0 = n ∧ c ≠ '-'
  | 0, n, acc, h => by omega
  | fuel + 1, n, acc, h => by
    have hd : n % 10 < 10 := Nat.mod_lt _ (by decide)
    by_cases h0 : n / 10 = 0
    · refine ⟨Nat.digitChar (n % 10), [], ?_, ?_, digitChar_ne_minus _ hd⟩
      · simp [Nat.toDigitsCore, h0]
      · simp only [List.foldl_cons, List.foldl_nil, Nat.zero_mul, Nat.zero_add]
        rw [digitChar_val _ hd]
        omega
    · obtain ⟨c, ds, h1, h2, h3⟩ := toDigitsCore_spec fuel (n / 10)
        (Nat.digitChar (n % 10) :: acc) (by omega)
      refine ⟨c, ds ++ [Nat.digitChar (n % 10)], ?_, ?_, h3⟩
      · simp [Nat.toDigitsCore, h0, h1]
      · rw [← List.cons_append, List.foldl_append, h2]
        simp only [List.foldl_cons, List.foldl_nil]
        rw [digitChar_val _ hd]
        omega

theorem repr_data (n : Nat) :
    ∃ c ds, (Nat.repr n).data = c :: ds ∧ digitsValue (c :: ds) = n ∧ c ≠ '-' := by
  obtain ⟨c, ds, h1, h2, h3⟩ := toDigitsCore_spec (n + 1) n [] (by omega)
  refine ⟨c, ds, ?_, h2, h3⟩
  simp [Nat.repr, Nat.toDigits, h1, List.asString]

theorem repr_injective (n m : Nat) (h : Nat.repr n = Nat.repr m) : n = m := by
  obtain ⟨c, ds, h1, h2, _⟩ := repr_data n
  obtain ⟨c', ds', h1', h2', _⟩ := repr_data m
  rw [h, h1'] at h1
  rw [← h2, ← h2', h1]

theorem to_string_injective (x y : Int) (h : to_string x = to_string y) : x = y := by
  cases x with
  | ofNat n =>
    cases y with
    | ofNat m => simp only [to_string] at h; rw [repr_injective n m h]
    | negSucc m =>
      exfalso
      simp only [to_string] at h
      obtain ⟨c, ds, h1, _, h3⟩ := repr_data n
      have := congrArg String.data h
      rw [h1, String.data_append] at this
      simp at this
      exact h3 this.1
  | negSucc n =>
    cases y with
    | ofNat m =>
      exfalso
      simp only [to_string] at h
      obtain ⟨c, ds, h1, _, h3⟩ := repr_data m
      have := congrArg String.data h
      rw [h1, String.data_append] at this
      simp at this
      exact h3 this.1.symm
    | negSucc m =>
      simp only [to_string] at h
      have := congrArg String.data h
      rw [String.data_append, String.data_append] at this
      have h2 : (Nat.repr (n + 1)).data = (Nat.repr (m + 1)).data := List.append_cancel_left this
      have h3 : n + 1 = m + 1 := repr_injective _ _ (String.ext h2)
      have : n = m := by omega
      rw [this]

/-! ## C9: which changes of a record change the digest input -/

theorem hashInput_data (E : Extern D) (a : Car D) :
    (hashInput E a).data = a.name.data ++ (to_string a.year).data ++ (E.to_string_double a.mileage).data := by
  simp [hashInput, String.data_append]

theorem computeHash_hash_of_kept (E : Extern D) (a : Car D) (ha : FILTER_FROM_YEAR ≤ a.year) :
    (computeHash E a).hash = E.sha1 (hashInput E a) := by
  simp [computeHash, ha]

/-- C9 (amended). Identical `(name, year, mileage)` triples always get identical hashes.
For two records that pass the year filter and an injective digest, the hashes differ when
the records differ in the name only, in the year only, or in the decimal text of the
mileage only. -/
theorem computeHash_single_field (E : Extern D) (a b : Car D) :
    (a.name = b.name → a.year = b.year → a.mileage = b.mileage →
      (computeHash E a).hash = (computeHash E b).hash) ∧
    (Function.Injective E.sha1 → FILTER_FROM_YEAR ≤ a.year → FILTER_FROM_YEAR ≤ b.year →
      (a.name ≠ b.name → a.year = b.year → E.to_string_double a.mileage = E.to_string_double b.mileage →
        (computeHash E a).hash ≠ (computeHash E b).hash) ∧
      (a.name = b.name → a.year ≠ b.year → E.to_string_double a.mileage = E.to_string_double b.mileage →
        (computeHash E a).hash ≠ (computeHash E b).hash) ∧
      (a.name = b.name → a.year = b.year → E.to_string_double a.mileage ≠ E.to_string_double b.mileage →
        (computeHash E a).hash ≠ (computeHash E b).hash)) := by
  constructor
  · intro h1 h2 h3
    simp only [computeHash, hashInput, h1, h2, h3]
  · intro hinj ha hb
    rw [computeHash_hash_of_kept E a ha, computeHash_hash_of_kept E b hb]
    refine ⟨?_, ?_, ?_⟩
    · intro hn hy hm heq
      have hd := congrArg String.data (hinj heq)
      rw [hashInput_data, hashInput_data, hy, hm, List.append_assoc, List.append_assoc] at hd
      exact hn (String.ext (List.append_cancel_right hd))
    · intro hn hy hm heq
      have hd := congrArg String.data (hinj heq)
      rw [hashInput_data, hashInput_data, hn, hm, List.append_assoc, List.append_assoc] at hd
      have h2 : (to_string a.year).data = (to_string b.year).data :=
        List.append_cancel_right (List.append_cancel_left hd)
      exact hy (to_string_injective _ _ (String.ext h2))
    · intro hn hy hm heq
      have hd := congrArg String.data (hinj heq)
      rw [hashInput_data, hashInput_data, hn, hy] at hd
      exact hm (String.ext (List.append_cancel_left hd))

/-- C9 (counterexample). Two records that pass the filter and differ in name, year and mileage, yet are given
the same digest input `A200120025.000000`, hence the same hash, by every digest; the
digest of `wholeExtern` is injective. -/
theorem hashInput_collision :
    Function.Injective wholeExtern.sha1 ∧
    collisionA.name ≠ collisionB.name ∧ collisionA.year ≠ collisionB.year ∧
    collisionA.mileage ≠ collisionB.mileage ∧
    FILTER_FROM_YEAR ≤ collisionA.year ∧ FILTER_FROM_YEAR ≤ collisionB.year ∧
    hashInput wholeExtern collisionA = "A200120025.000000" ∧
    hashInput wholeExtern collisionB = "A200120025.000000" ∧
    (computeHash wholeExtern collisionA).hash = (computeHash wholeExtern collisionB).hash :=
  ⟨fun _ _ h => h, by decide, by decide, by decide, by decide, by decide, by decide, by decide,
    by decide⟩

theorem computeHash_single_field_witness :
    (computeHash wholeExtern ⟨"B", 2005, 20, ""⟩).hash
        = (computeHash wholeExtern ⟨"B", 2005, 20, "old"⟩).hash ∧
    (computeHash wholeExtern ⟨"B", 2005, 20, ""⟩).hash
        ≠ (computeHash wholeExtern ⟨"B", 2006, 20, ""⟩).hash :=
  ⟨(computeHash_single_field wholeExtern ⟨"B", 2005, 20, ""⟩ ⟨"B", 2005, 20, "old"⟩).1 rfl rfl rfl,
    ((computeHash_single_field wholeExtern ⟨"B", 2005, 20, ""⟩ ⟨"B", 2006, 20, ""⟩).2
      (fun _ _ h => h) (by decide) (by decide)).2.1 rfl (by decide) rfl⟩

/-! ## C10: the capacity `main` passes for a one-record input -/

theorem dataLoop_capacity_zero (E : Extern D) :
    ∀ reqs : List (Request D), (∀ r ∈ reqs, r.request = INSERT) →
      dataLoop E 0 (dataInit E 0) reqs
        = (dataInit E 0, reqs.map (fun r => .send r.source TO_MAIN (.int REJECT)), [])
  | [], _ => rfl
  | r :: rs, h => by
    have hr : r.request = INSERT := h r (List.mem_cons_self _ _)
    have hstep : dataStep E 0 (dataInit E 0) r
        = (dataInit E 0, [.send r.source TO_MAIN (.int REJECT)]) := by
      simp [dataStep, hr, dataInit]
    have ih := dataLoop_capacity_zero E rs (fun x hx => h x (List.mem_cons_of_mem _ hx))
    have hrun : (dataInit E 0).running = true := rfl
    simp only [dataLoop, hrun, if_true, hstep, ih, List.map_cons, List.singleton_append]

/-- C10 (failing input). For a one-record input `main` passes capacity `1 / 2 = 0` to
`dataProcess`; the Buffer then answers every `INSERT` of the Source with `REJECT` and
stays in its initial state, so the record is never accepted. -/
theorem mainBufSize_single_record :
    mainBufSize [collisionA] = 0 ∧
    dataLoop wholeExtern (mainBufSize [collisionA]) (dataInit wholeExtern (mainBufSize [collisionA]))
        [⟨MAIN_PROC, INSERT, collisionA⟩, ⟨MAIN_PROC, INSERT, collisionA⟩,
         ⟨MAIN_PROC, INSERT, collisionA⟩]
      = (dataInit wholeExtern 0,
          [.send MAIN_PROC TO_MAIN (.int REJECT), .send MAIN_PROC TO_MAIN (.int REJECT),
           .send MAIN_PROC TO_MAIN (.int REJECT)], []) ∧
    dataProcess wholeExtern (mainBufSize [collisionA]) 1
        [⟨MAIN_PROC, INSERT, collisionA⟩, ⟨MAIN_PROC, INSERT, collisionA⟩,
         ⟨MAIN_PROC, INSERT, collisionA⟩] = none := by
  refine ⟨by decide, by decide, by decide⟩

/-! ## C12: the sorted insert is stable -/

theorem placeBack_split (item : Car D) :
    ∀ rl : List (Car D), ∃ hi lo, rl = hi ++ lo ∧ placeBack item rl = hi ++ item :: lo ∧
      (∀ x ∈ hi, item.hash < x.hash) ∧ (∀ y, lo.head? = some y → y.hash ≤ item.hash)
  | [] => ⟨[], [], rfl, rfl, by simp, by simp⟩
  | x :: rest => by
    by_cases hc : strCompare x.hash item.hash = .gt
    · obtain ⟨hi, lo, h1, h2, h3, h4⟩ := placeBack_split item rest
      refine ⟨x :: hi, lo, by rw [h1]; rfl, ?_, ?_, h4⟩
      · simp only [placeBack, hc, if_true, h2, List.cons_append]
      · intro y hy
        rcases List.mem_cons.mp hy with hy1 | hy1
        · rw [hy1]; exact (strCompare_gt_iff _ _).mp hc
        · exact h3 y hy1
    · refine ⟨[], x :: rest, rfl, ?_, by simp, ?_⟩
      · simp only [placeBack, hc, if_false, List.nil_append]
      · intro y hy
        simp only [List.head?_cons, Option.some.injEq] at hy
        rw [← hy]
        exact not_lt.mp (fun hlt => hc ((strCompare_gt_iff _ _).mpr hlt))

theorem insertItem_split (E : Extern D) (cars : List (Car D)) (n : Nat) (item : Car D)
    (hn : n < cars.length) (hs : SortedByHash (cars.take n)) :
    ∃ before after, cars.take n = before ++ after ∧
      (insertItem E cars n item).1.take (n + 1) = before ++ item :: after ∧
      (∀ x ∈ before, x.hash ≤ item.hash) ∧ (∀ x ∈ after, item.hash < x.hash) := by
  obtain ⟨hi, lo, h1, h2, h3, h4⟩ := placeBack_split item (cars.take n).reverse
  have hrev : cars.take n = lo.reverse ++ hi.reverse := by
    rw [← List.reverse_append, ← h1, List.reverse_reverse]
  refine ⟨lo.reverse, hi.reverse, hrev, ?_, ?_, ?_⟩
  · rw [insertItem_take E cars n item hn, h2]
    simp
  · intro x hx
    have hx1 : x ∈ lo := List.mem_reverse.mp hx
    cases lo with
    | nil => simp at hx1
    | cons y lo1 =>
      have hy : y.hash ≤ item.hash := h4 y rfl
      rcases List.mem_cons.mp hx1 with hx2 | hx2
      · rw [hx2]; exact hy
      · unfold SortedByHash at hs
        rw [hrev, List.pairwise_append] at hs
        have hdesc := hs.1
        rw [List.pairwise_reverse, List.pairwise_cons] at hdesc
        exact le_trans (hdesc.1 x hx2) hy
  · intro x hx
    exact h3 x (List.mem_reverse.mp hx)

theorem insertItem_filter_hash (E : Extern D) (cars : List (Car D)) (n : Nat) (item : Car D)
    (hn : n < cars.length) (hs : SortedByHash (cars.take n)) (h : String) :
    ((insertItem E cars n item).1.take (n + 1)).filter (fun c => decide (c.hash = h))
      = (cars.take n).filter (fun c => decide (c.hash = h))
          ++ [item].filter (fun c => decide (c.hash = h)) := by
  obtain ⟨before, after, h1, h2, _, h4⟩ := insertItem_split E cars n item hn hs
  rw [h1, h2]
  by_cases hi : item.hash = h
  · have hafter : after.filter (fun c => decide (c.hash = h)) = [] := by
      rw [List.filter_eq_nil_iff]
      intro x hx
      have := h4 x hx
      rw [hi] at this
      simp only [decide_eq_true_eq]
      exact fun heq => absurd this (by rw [heq]; exact lt_irrefl _)
    simp [List.filter_append, List.filter_cons, hi, hafter]
  · simp [List.filter_append, List.filter_cons, hi]

theorem insertAll_filter_hash (E : Extern D) (h : String) :
    ∀ (items buf : List (Car D)) (n : Nat), n + items.length ≤ buf.length →
      SortedByHash (buf.take n) →
      ((insertAll E (buf, n) items).1.take (insertAll E (buf, n) items).2).filter
          (fun c => decide (c.hash = h))
        = (buf.take n).filter (fun c => decide (c.hash = h))
            ++ items.filter (fun c => decide (c.hash = h))
  | [], buf, n, _, _ => by simp [insertAll]
  | item :: rest, buf, n, hlen, hs => by
    have hn : n < buf.length := by simp only [List.length_cons] at hlen; omega
    obtain ⟨_, h2, _⟩ := insertItem_inv E buf n item hn hs
    have h4 := insertItem_length E buf n item hn
    have hstep : insertAll E (buf, n) (item :: rest)
        = insertAll E ((insertItem E buf n item).1, n + 1) rest := by
      simp only [insertAll, List.foldl_cons]
      rfl
    rw [hstep, insertAll_filter_hash E h rest (insertItem E buf n item).1 (n + 1)
      (by rw [h4]; simp only [List.length_cons] at hlen; omega) h2,
      insertItem_filter_hash E buf n item hn hs h, List.append_assoc, ← List.filter_append,
      List.singleton_append]

/-- C12. For a store whose first `n` entries are sorted ascending by hash (and whose slot
`n` exists), `insertItem` splits these entries into `before ++ after` without reordering
them and stores `before ++ item :: after`, where every entry of `before` has a hash
`<= item.hash` and every entry of `after` a hash `> item.hash`: the item lands immediately
after the last entry whose hash is `<= item.hash`, behind every entry with an equal hash.
Hence, when records are inserted one by one into an empty store, the stored records with
any given hash appear in their order of arrival. -/
theorem insertItem_stable (E : Extern D) (cars : List (Car D)) (n : Nat) (item : Car D)
    (hn : n < cars.length) (hs : SortedByHash (cars.take n)) :
    (∃ before after, cars.take n = before ++ after ∧
      (insertItem E cars n item).1.take (n + 1) = before ++ item :: after ∧
      (∀ x ∈ before, x.hash ≤ item.hash) ∧ (∀ x ∈ after, item.hash < x.hash)) ∧
    (∀ (items : List (Car D)) (bufSize : Nat) (h : String), items.length ≤ bufSize →
      ((insertAll E (List.replicate bufSize (Car.mk0 E), 0) items).1.take
          (insertAll E (List.replicate bufSize (Car.mk0 E), 0) items).2).filter
          (fun c => decide (c.hash = h))
        = items.filter (fun c => decide (c.hash = h))) := by
  refine ⟨insertItem_split E cars n item hn hs, ?_⟩
  intro items bufSize h hlen
  have := insertAll_filter_hash E h items (List.replicate bufSize (Car.mk0 E)) 0
    (by rw [List.length_replicate]; omega) (by simp [SortedByHash])
  simpa using this

theorem insertItem_stable_witness :
    2 < sampleStore.length ∧ SortedByHash (sampleStore.take 2) ∧
    (insertItem wholeExtern sampleStore 2 ⟨"x", 2001, 7, "c"⟩).1
      = [⟨"", 0, 0, "a"⟩, ⟨"", 0, 0, "c"⟩, ⟨"x", 2001, 7, "c"⟩] ∧
    (∃ before after, sampleStore.take 2 = before ++ after ∧
      (insertItem wholeExtern sampleStore 2 ⟨"x", 2001, 7, "c"⟩).1.take (2 + 1)
        = before ++ ⟨"x", 2001, 7, "c"⟩ :: after ∧
      (∀ x ∈ before, x.hash ≤ "c") ∧ (∀ x ∈ after, "c" < x.hash)) :=
  ⟨by decide, sortedCheck_sound _ (by decide), by decide,
    (insertItem_stable wholeExtern sampleStore 2 ⟨"x", 2001, 7, "c"⟩ (by decide)
      (sortedCheck_sound _ (by decide))).1⟩

/-! ## C11: the pipeline on a one-record input -/

theorem dataLoop_retry_zero (E : Extern D) (c : Car D) :
    ∀ sched : List (Option Nat),
      dataLoop E 0 (dataInit E 0) (sched.map (retryRequest E c))
        = (dataInit E 0, sched.map rejectReply, [])
  | [] => rfl
  | x :: rest => by
    have hne : REMOVE ≠ INSERT := by decide
    have hstep : dataStep E 0 (dataInit E 0) (retryRequest E c x)
        = (dataInit E 0, [rejectReply x]) := by
      cases x <;> simp [dataStep, retryRequest, rejectReply, dataInit, hne]
    have ih := dataLoop_retry_zero E c rest
    have hrun : (dataInit E 0).running = true := rfl
    simp only [List.map_cons, dataLoop, hrun, if_true, hstep, ih, List.singleton_append]

theorem feedLoop_rejected (c : Car D) :
    ∀ k : Nat, feedLoop [c] (List.replicate k REJECT)
      = (List.replicate (k + 1) (.int INSERT), false)
  | 0 => rfl
  | k + 1 => by
    have hne : REJECT ≠ ACCEPT := by decide
    simp only [List.replicate_succ, feedLoop, hne, ne_eq, not_false_eq_true, if_true,
      feedLoop_rejected c k]

theorem workerProcess_rejected (E : Extern D) (x : Car D) :
    ∀ k : Nat, workerProcess E (List.replicate k (REJECT, x)) = []
  | 0 => rfl
  | k + 1 => by
    have h1 : REJECT ≠ END := by decide
    have h2 : REJECT ≠ ACCEPT := by decide
    simp only [List.replicate_succ, workerProcess, h1, h2, ne_eq, not_false_eq_true, if_true,
      if_false, workerProcess_rejected E x k]

/-- C11 (failing input). For an input of one record `c`, `main` gives the Buffer capacity
`0`.  In whatever order the Buffer then reads the Source's `INSERT` requests and the
Workers' `REMOVE` requests, it answers each with `REJECT`, stays in its initial state and
never leaves its loop; after any number `k` of rejections the Source is still in its feed
loop, having sent only `INSERT` requests and no `END`, a Worker has sent nothing to the
Aggregator, and the Aggregator, having received nothing, has sent no terminator. -/
theorem single_record_pipeline_stuck (E : Extern D) (c : Car D) (W : Nat)
    (sched : List (Option Nat)) (k : Nat) :
    mainBufSize [c] = 0 ∧
    dataLoop E (mainBufSize [c]) (dataInit E (mainBufSize [c])) (sched.map (retryRequest E c))
      = (dataInit E 0, sched.map rejectReply, []) ∧
    dataProcess E (mainBufSize [c]) W (sched.map (retryRequest E c)) = none ∧
    feedLoop [c] (List.replicate k REJECT) = (List.replicate (k + 1) (.int INSERT), false) ∧
    workerProcess E (List.replicate k (REJECT, Car.mk0 E)) = [] ∧
    resultProcess E 1 W [] = none := by
  have h0 : mainBufSize [c] = 0 := by simp [mainBufSize]
  rw [h0]
  refine ⟨rfl, dataLoop_retry_zero E c sched, ?_, feedLoop_rejected c k,
    workerProcess_rejected E _ k, rfl⟩
  simp only [dataProcess, dataLoop_retry_zero E c sched]
  rfl

end Mpi

namespace OpenMp

/-! ## C13: the four index ranges partition the input -/

theorem splitElements_eq (a b c d : Int) (n : Nat) :
    splitElements [a, b, c, d] n =
      [0, (n : Int) / 4 + (if (n : Int) % 4 > 0 then 1 else 0),
        2 * ((n : Int) / 4) + (if (n : Int) % 4 > 1 then 2 else if (n : Int) % 4 > 0 then 1 else 0),
        3 * ((n : Int) / 4) + (n : Int) % 4] := by
  have h0 : 0 ≤ (n : Int) % 4 := by omega
  have h4 : (n : Int) % 4 < 4 := by omega
  simp only [splitElements, THREAD_NUM, splitLoop, Nat.cast_ofNat]
  generalize (n : Int) % 4 = r at *
  generalize (n : Int) / 4 = f at *
  have hr : r = 0 ∨ r = 1 ∨ r = 2 ∨ r = 3 := by omega
  rcases hr with h | h | h | h <;> subst h <;> simp <;> omega

theorem ranges_partition_aux (arr : List Int) (n : Nat) (harr : arr.length = THREAD_NUM) :
    (∀ idx : Nat, idx < THREAD_NUM →
      0 ≤ threadStart (splitElements arr n) idx ∧
      threadStart (splitElements arr n) idx ≤ threadEnd (splitElements arr n) n idx ∧
      threadEnd (splitElements arr n) n idx ≤ (n : Int)) ∧
    (∀ idx jdx : Nat, idx < THREAD_NUM → jdx < THREAD_NUM → idx < jdx →
      threadEnd (splitElements arr n) n idx ≤ threadStart (splitElements arr n) jdx) ∧
    (∀ i : Nat, i < n → ∃ idx : Nat, idx < THREAD_NUM ∧
      threadStart (splitElements arr n) idx ≤ (i : Int) ∧
      (i : Int) < threadEnd (splitElements arr n) n idx) := by
  match arr, harr with
  | [a, b, c, d], _ =>
    rw [splitElements_eq]
    have h0 : 0 ≤ (n : Int) % 4 := by omega
    have h4 : (n : Int) % 4 < 4 := by omega
    have hn : (n : Int) = 4 * ((n : Int) / 4) + (n : Int) % 4 := by omega
    have hf : 0 ≤ (n : Int) / 4 := by omega
    generalize (n : Int) % 4 = r at *
    generalize (n : Int) / 4 = f at *
    have hr : r = 0 ∨ r = 1 ∨ r = 2 ∨ r = 3 := by omega
    refine ⟨?_, ?_, ?_⟩
    · intro idx hidx
      simp only [THREAD_NUM] at hidx
      interval_cases idx <;> rcases hr with h | h | h | h <;> subst h <;>
        simp [threadStart, threadEnd, THREAD_NUM] <;> omega
    · intro idx jdx hidx hjdx hlt
      simp only [THREAD_NUM] at hidx hjdx
      interval_cases idx <;> interval_cases jdx <;> rcases hr with h | h | h | h <;> subst h <;>
        simp [threadStart, threadEnd, THREAD_NUM] at hlt ⊢ <;> omega
    · intro i hi
      have hi' : (i : Int) < 4 * f + r := by omega
      by_cases c1 : (i : Int) < f + (if r > 0 then 1 else 0)
      · refine ⟨1, by decide, ?_⟩
        simp [threadStart, threadEnd, THREAD_NUM]
        exact c1
      · by_cases c2 : (i : Int) < 2 * f + (if r > 1 then 2 else if r > 0 then 1 else 0)
        · refine ⟨2, by decide, ?_⟩
          simp [threadStart, threadEnd, THREAD_NUM]
          exact ⟨by omega, c2⟩
        · refine ⟨3, by decide, ?_⟩
          simp [threadStart, threadEnd, THREAD_NUM]
          exact ⟨by omega, by omega⟩

/-- C13. For every input size `n` and whatever the array held on entry, the `THREAD_NUM`
ranges `[start, end)` that `main` derives from `splitElements` satisfy
`0 <= start <= end <= n`, are pairwise disjoint, and every index `0 .. n-1` lies in exactly
one of them. -/
theorem ranges_partition (arr : List Int) (n : Nat) (harr : arr.length = THREAD_NUM) :
    (∀ idx : Nat, idx < THREAD_NUM →
      0 ≤ threadStart (splitElements arr n) idx ∧
      threadStart (splitElements arr n) idx ≤ threadEnd (splitElements arr n) n idx ∧
      threadEnd (splitElements arr n) n idx ≤ (n : Int)) ∧
    (∀ idx jdx : Nat, idx < THREAD_NUM → jdx < THREAD_NUM → idx ≠ jdx → ∀ i : Int,
      ¬ ((threadStart (splitElements arr n) idx ≤ i ∧ i < threadEnd (splitElements arr n) n idx) ∧
         (threadStart (splitElements arr n) jdx ≤ i ∧
           i < threadEnd (splitElements arr n) n jdx))) ∧
    (∀ i : Nat, i < n → ∃! idx : Nat, idx < THREAD_NUM ∧
      threadStart (splitElements arr n) idx ≤ (i : Int) ∧
      (i : Int) < threadEnd (splitElements arr n) n idx) := by
  obtain ⟨h1, h2, h3⟩ := ranges_partition_aux arr n harr
  have hdis : ∀ idx jdx : Nat, idx < THREAD_NUM → jdx < THREAD_NUM → idx ≠ jdx → ∀ i : Int,
      ¬ ((threadStart (splitElements arr n) idx ≤ i ∧ i < threadEnd (splitElements arr n) n idx) ∧
         (threadStart (splitElements arr n) jdx ≤ i ∧
           i < threadEnd (splitElements arr n) n jdx)) := by
    intro idx jdx hi hj hne i hin
    rcases Nat.lt_or_gt_of_ne hne with hlt | hgt
    · have := h2 idx jdx hi hj hlt
      omega
    · have := h2 jdx idx hj hi hgt
      omega
  refine ⟨h1, hdis, ?_⟩
  intro i hi
  obtain ⟨idx, hidx, hs, he⟩ := h3 i hi
  refine ⟨idx, ⟨hidx, hs, he⟩, ?_⟩
  intro jdx hj
  by_contra hne
  exact hdis jdx idx hj.1 hidx hne (i : Int) ⟨hj.2, hs, he⟩

theorem ranges_partition_witness :
    ([7, -3, 9, 9] : List Int).length = THREAD_NUM ∧
    splitElements [7, -3, 9, 9] 5 = [0, 2, 3, 4] ∧
    (List.range THREAD_NUM).map
        (fun idx => (threadStart (splitElements [7, -3, 9, 9] 5) idx,
          threadEnd (splitElements [7, -3, 9, 9] 5) 5 idx))
      = [(0, 0), (0, 2), (2, 3), (3, 5)] ∧
    (∀ i : Nat, i < 5 → ∃! idx : Nat, idx < THREAD_NUM ∧
      threadStart (splitElements [7, -3, 9, 9] 5) idx ≤ (i : Int) ∧
      (i : Int) < threadEnd (splitElements [7, -3, 9, 9] 5) 5 idx) :=
  ⟨rfl, by decide, by decide, (ranges_partition [7, -3, 9, 9] 5 rfl).2.2⟩

end OpenMp
